import Mathlib

/-!
Verification development for the Telco-Sentinel battery dashboard.

The subject program is a single-file dashboard (`src/app.py`).  Its core
logic, embedded below over exact rationals, is:

* lines 67-83: for the selected battery's history (a list of
  `(cycle, Capacity)` pairs), read the current cycle, the latest and the
  starting capacity, compute `soh`, fit a least-squares line
  (`LinearRegression().fit`), and derive `remaining_cycles` from
  `predicted_end_cycle = (EOL_THRESHOLD - c) / m`;
* line 119: the alert threshold `remaining_cycles < 15`;
* lines 37-44: ingestion of the metadata table (filter to `discharge`
  rows with a numeric `Capacity`, sort by `(battery_id, test_id)`,
  number cycles per battery with `groupby(...).cumcount() + 1`);
* lines 138-139: the sensor-column fallbacks `v_col` / `t_col`.

Arithmetic on the history is modelled over `ℚ`.  The source operates on
numpy float64 values, whose division by zero produces signed infinities
or NaN instead of raising; those non-finite outcomes and Python's
`int(...)` conversion errors are modelled explicitly by `PyFloat` and
`PyErr`, so that the behaviour of the source on degenerate inputs
(zero slope, zero baseline, empty history) is captured faithfully.
-/

/-- Errors a Python/numpy evaluation of the source can raise: `iloc[-1]`
on an empty frame raises `IndexError`; `int(x)` raises `OverflowError`
for an infinite `x` and `ValueError` for NaN. -/
inductive PyErr where
  | indexError
  | overflowError
  | valueError
deriving DecidableEq, Repr

/-- A numpy float64 value, idealised: exact rationals plus the two signed
infinities and NaN.  Rounding is not modelled; the non-finite values are,
because the source divides by a possibly-zero slope. -/
inductive PyFloat where
  | fin (q : ℚ)
  | inf
  | ninf
  | nan
deriving DecidableEq, Repr

namespace PyFloat

/-- IEEE-754 division as numpy performs it: a finite nonzero numerator
divided by zero gives a signed infinity, `0/0` gives NaN. -/
def div : PyFloat → PyFloat → PyFloat
  | nan, _ => nan
  | _, nan => nan
  | inf, inf => nan
  | inf, ninf => nan
  | ninf, inf => nan
  | ninf, ninf => nan
  | fin _, inf => fin 0
  | fin _, ninf => fin 0
  | inf, fin b => if 0 < b then inf else if b < 0 then ninf else nan
  | ninf, fin b => if 0 < b then ninf else if b < 0 then inf else nan
  | fin a, fin b =>
      if b ≠ 0 then fin (a / b)
      else if 0 < a then inf else if a < 0 then ninf else nan

/-- IEEE-754 subtraction on the modelled values. -/
def sub : PyFloat → PyFloat → PyFloat
  | nan, _ => nan
  | _, nan => nan
  | inf, inf => nan
  | ninf, ninf => nan
  | inf, _ => inf
  | ninf, _ => ninf
  | fin _, inf => ninf
  | fin _, ninf => inf
  | fin a, fin b => fin (a - b)

/-- IEEE-754 multiplication on the modelled values. -/
def mul : PyFloat → PyFloat → PyFloat
  | nan, _ => nan
  | _, nan => nan
  | inf, inf => inf
  | inf, ninf => ninf
  | ninf, inf => ninf
  | ninf, ninf => inf
  | inf, fin b => if 0 < b then inf else if b < 0 then ninf else nan
  | ninf, fin b => if 0 < b then ninf else if b < 0 then inf else nan
  | fin a, inf => if 0 < a then inf else if a < 0 then ninf else nan
  | fin a, ninf => if 0 < a then ninf else if a < 0 then inf else nan
  | fin a, fin b => fin (a * b)

/-- Python's `max(0, x)`: returns `x` only when `x > 0` is true, so both
`-inf` and NaN give `0` (a NaN comparison is false). -/
def pymax0 : PyFloat → PyFloat
  | fin q => fin (max 0 q)
  | inf => inf
  | ninf => fin 0
  | nan => fin 0

end PyFloat

/-- Truncation toward zero, the behaviour of Python's `int(...)` on a
finite float. -/
def truncQ (q : ℚ) : ℤ := if 0 ≤ q then ⌊q⌋ else -⌊-q⌋

/-- Python's `int(x)` on a float: truncation toward zero on finite
values, `OverflowError` on the infinities, `ValueError` on NaN. -/
def pyInt : PyFloat → Except PyErr ℤ
  | .fin q => .ok (truncQ q)
  | .inf => .error .overflowError
  | .ninf => .error .overflowError
  | .nan => .error .valueError

/-- Number of points of the history, as a rational. -/
def nQ (pts : List (ℚ × ℚ)) : ℚ := pts.length

/-- Sum of the cycle indices (the regressor `X` of line 74). -/
def sx (pts : List (ℚ × ℚ)) : ℚ := (pts.map Prod.fst).sum

/-- Sum of the capacities (the regressand `y` of line 75). -/
def sy (pts : List (ℚ × ℚ)) : ℚ := (pts.map Prod.snd).sum

/-- Sum of the squared cycle indices. -/
def sxx (pts : List (ℚ × ℚ)) : ℚ := (pts.map (fun p => p.1 * p.1)).sum

/-- Sum of the cycle-capacity products. -/
def sxy (pts : List (ℚ × ℚ)) : ℚ := (pts.map (fun p => p.1 * p.2)).sum

/-- Sum of the squared capacities. -/
def syy (pts : List (ℚ × ℚ)) : ℚ := (pts.map (fun p => p.2 * p.2)).sum

/-- Numerator of the ordinary-least-squares slope,
`n·Σxy - Σx·Σy`. -/
def slopeNum (pts : List (ℚ × ℚ)) : ℚ := nQ pts * sxy pts - sx pts * sy pts

/-- Denominator of the ordinary-least-squares slope,
`n·Σx² - (Σx)²`. -/
def slopeDen (pts : List (ℚ × ℚ)) : ℚ := nQ pts * sxx pts - sx pts * sx pts

/-- The slope `model.coef_[0]` fitted by `LinearRegression().fit` (line
76): the ordinary-least-squares slope in closed form.  When all cycle
values coincide the denominator is `0` and rational division yields `0`,
which agrees with the minimum-norm least-squares solution sklearn
computes on centred data in that degenerate case. -/
def coef (pts : List (ℚ × ℚ)) : ℚ := slopeNum pts / slopeDen pts

/-- The intercept `model.intercept_` of the fitted line: `ȳ - m·x̄`. -/
def intercept (pts : List (ℚ × ℚ)) : ℚ := (sy pts - coef pts * sx pts) / nQ pts

/-- Capacity threshold for replacement, line 26 of the source. -/
def EOL_THRESHOLD : ℚ := 14 / 10

/-- The quantities the prediction engine derives for the selected
battery (lines 67-83): `soh`, `latest_capacity`, `remaining_cycles` and
the fitted slope `m` and intercept `c`. -/
structure HealthEstimate where
  soh : PyFloat
  latest_capacity : ℚ
  remaining_cycles : ℤ
  m : ℚ
  c : ℚ
deriving DecidableEq, Repr

/-- Line 71 of the source: `soh = (latest_capacity / start_capacity) *
100`, in float semantics (a zero baseline gives an infinity or NaN, not
an error). -/
def sohVal (start_capacity latest_capacity : ℚ) : PyFloat :=
  PyFloat.mul (PyFloat.div (.fin latest_capacity) (.fin start_capacity)) (.fin 100)

/-- Lines 68-71 of the source: read the first and last capacity of the
selected history with `iloc` (an empty history raises `IndexError`) and
compute `soh`. -/
def soh (pts : List (ℚ × ℚ)) : Except PyErr PyFloat :=
  match pts.head?, pts.getLast? with
  | some first, some last => .ok (sohVal first.2 last.2)
  | _, _ => .error .indexError

/-- Lines 67-83 of the source, for one battery history given as
`(cycle, Capacity)` pairs: read `current_cycle`, `latest_capacity` and
`start_capacity` with `iloc`, compute `soh`, fit the trend line, solve
`predicted_end_cycle = (EOL_THRESHOLD - c) / m` in float semantics and
set `remaining_cycles = int(max(0, predicted_end_cycle -
current_cycle))`. -/
def estimate (pts : List (ℚ × ℚ)) : Except PyErr HealthEstimate :=
  match pts.head?, pts.getLast? with
  | some first, some last =>
      let current_cycle := last.1
      let latest_capacity := last.2
      let start_capacity := first.2
      let m := coef pts
      let c := intercept pts
      let predicted_end_cycle := PyFloat.div (.fin (EOL_THRESHOLD - c)) (.fin m)
      match pyInt (PyFloat.pymax0 (PyFloat.sub predicted_end_cycle (.fin current_cycle))) with
      | .ok rc => .ok ⟨sohVal start_capacity latest_capacity, latest_capacity, rc, m, c⟩
      | .error e => .error e
  | _, _ => .error .indexError

/-- The two alert states of lines 119-122. -/
inductive Alert where
  | HEALTHY
  | URGENT
deriving DecidableEq, Repr

/-- Line 119 of the source: `URGENT` when `remaining_cycles < 15`,
`HEALTHY` otherwise. -/
def alert (remaining_cycles : ℤ) : Alert :=
  if remaining_cycles < 15 then .URGENT else .HEALTHY

/-- A row of `metadata.csv` after line 37's `pd.to_numeric(...,
errors='coerce')`: `Capacity` is `none` when the raw value was not a
valid number (pandas NaN). -/
structure MetaRow where
  battery_id : String
  test_id : ℤ
  type : String
  Capacity : Option ℚ
deriving DecidableEq, Repr

/-- The `(battery_id, test_id)` sort key of line 41, as a boolean
preorder.  `String` order in Lean is the lexicographic order on the
character data, which is also how pandas orders strings. -/
def keyLe (a b : MetaRow) : Bool :=
  decide (a.battery_id.data < b.battery_id.data) ||
    (a.battery_id == b.battery_id && decide (a.test_id ≤ b.test_id))

/-- Line 42 of the source, `groupby('battery_id').cumcount() + 1`: each
row is paired with one plus the number of earlier rows carrying the same
`battery_id`.  The counter function records how many rows of each
battery have been seen so far. -/
def assignCycles : List MetaRow → (String → ℕ) → List (MetaRow × ℕ)
  | [], _ => []
  | r :: rest, cnt =>
      (r, cnt r.battery_id + 1) ::
        assignCycles rest (fun b => if b = r.battery_id then cnt b + 1 else cnt b)

/-- Lines 40-42 of the source: keep the rows whose `type` is
`"discharge"` and whose `Capacity` coerced to a number, sort by
`(battery_id, test_id)`, then number the cycles per battery. -/
def load_metadata (df : List MetaRow) : List (MetaRow × ℕ) :=
  assignCycles
    (((df.filter (fun r => r.type == "discharge" && r.Capacity.isSome)).mergeSort keyLe))
    (fun _ => 0)

/-- Line 138 of the source: the voltage chart's column is
`'Voltage_measured'` when present, otherwise the dataframe's first
column. -/
def v_col (cols : List String) : Option String :=
  if cols.contains "Voltage_measured" then some "Voltage_measured" else cols.head?

/-- Line 139 of the source: the temperature chart's column is
`'Temperature_measured'` when present, otherwise the dataframe's first
column. -/
def t_col (cols : List String) : Option String :=
  if cols.contains "Temperature_measured" then some "Temperature_measured" else cols.head?

/-- A small metadata table with mixed `"charge"`, `"discharge"` and
`"impedance"` rows, one malformed `Capacity`, and two batteries, used to
exercise the ingestion contract on a concrete input. -/
def sampleMetadata : List MetaRow :=
  [⟨"B1", 1, "charge", some 2⟩,
   ⟨"B1", 2, "discharge", some 2⟩,
   ⟨"B1", 3, "discharge", none⟩,
   ⟨"B1", 4, "discharge", some (9/5)⟩,
   ⟨"B2", 1, "discharge", some 3⟩,
   ⟨"B2", 2, "impedance", some 1⟩]

/-- Residual sum of squares of the line `y = m·x + c` on a history: the
quantity ordinary least squares minimises. -/
def SSE (pts : List (ℚ × ℚ)) (m c : ℚ) : ℚ :=
  (pts.map (fun p => (p.2 - (m * p.1 + c)) * (p.2 - (m * p.1 + c)))).sum

theorem nQ_nil : nQ [] = 0 := by simp [nQ]

theorem nQ_cons (p : ℚ × ℚ) (l : List (ℚ × ℚ)) : nQ (p :: l) = nQ l + 1 := by
  simp [nQ]

theorem sx_cons (p : ℚ × ℚ) (l : List (ℚ × ℚ)) : sx (p :: l) = p.1 + sx l := by
  simp [sx]

theorem sy_cons (p : ℚ × ℚ) (l : List (ℚ × ℚ)) : sy (p :: l) = p.2 + sy l := by
  simp [sy]

theorem sxx_cons (p : ℚ × ℚ) (l : List (ℚ × ℚ)) : sxx (p :: l) = p.1 * p.1 + sxx l := by
  simp [sxx]

theorem sxy_cons (p : ℚ × ℚ) (l : List (ℚ × ℚ)) : sxy (p :: l) = p.1 * p.2 + sxy l := by
  simp [sxy]

theorem syy_cons (p : ℚ × ℚ) (l : List (ℚ × ℚ)) : syy (p :: l) = p.2 * p.2 + syy l := by
  simp [syy]

theorem sum_shift_mul (l : List (ℚ × ℚ)) (a b : ℚ) :
    (l.map (fun q => (q.1 - a) * (q.2 - b))).sum
      = sxy l - a * sy l - b * sx l + a * b * nQ l := by
  induction l with
  | nil => simp [sxy, sy, sx, nQ]
  | cons p l ih =>
      simp only [List.map_cons, List.sum_cons, ih, sxy_cons, sy_cons, sx_cons, nQ_cons]
      ring

theorem sum_shift_sq (l : List (ℚ × ℚ)) (a : ℚ) :
    (l.map (fun q => (q.1 - a) * (q.1 - a))).sum
      = sxx l - 2 * a * sx l + a * a * nQ l := by
  induction l with
  | nil => simp [sxx, sx, nQ]
  | cons p l ih =>
      simp only [List.map_cons, List.sum_cons, ih, sxx_cons, sx_cons, nQ_cons]
      ring

theorem sum_affine_sq (l : List (ℚ × ℚ)) (a b : ℚ) :
    (l.map (fun p => (a * p.1 + b) * (a * p.1 + b))).sum
      = a * a * sxx l + 2 * (a * b) * sx l + b * b * nQ l := by
  induction l with
  | nil => simp [sxx, sx, nQ]
  | cons p l ih =>
      simp only [List.map_cons, List.sum_cons, ih, sxx_cons, sx_cons, nQ_cons]
      ring

theorem SSE_expand (pts : List (ℚ × ℚ)) (m c : ℚ) :
    SSE pts m c
      = syy pts - 2 * m * sxy pts - 2 * c * sy pts + m * m * sxx pts
          + 2 * (m * c) * sx pts + c * c * nQ pts := by
  induction pts with
  | nil => simp [SSE, syy, sxy, sy, sxx, sx, nQ]
  | cons p l ih =>
      simp only [SSE, List.map_cons, List.sum_cons] at ih ⊢
      rw [ih, syy_cons, sxy_cons, sy_cons, sxx_cons, sx_cons, nQ_cons]
      ring

theorem slopeNum_cons (p : ℚ × ℚ) (l : List (ℚ × ℚ)) :
    slopeNum (p :: l)
      = slopeNum l + (l.map (fun q => (q.1 - p.1) * (q.2 - p.2))).sum := by
  rw [slopeNum, slopeNum, sum_shift_mul, nQ_cons, sx_cons, sy_cons, sxy_cons]
  ring

theorem slopeDen_cons (p : ℚ × ℚ) (l : List (ℚ × ℚ)) :
    slopeDen (p :: l)
      = slopeDen l + (l.map (fun q => (q.1 - p.1) * (q.1 - p.1))).sum := by
  rw [slopeDen, slopeDen, sum_shift_sq, nQ_cons, sx_cons, sxx_cons]
  ring

theorem list_sum_nonpos {l : List ℚ} (h : ∀ x ∈ l, x ≤ 0) : l.sum ≤ 0 := by
  induction l with
  | nil => simp
  | cons a l ih =>
      have ha := h a (List.mem_cons_self a l)
      have hl := ih (fun x hx => h x (List.mem_cons_of_mem a hx))
      simp only [List.sum_cons]
      linarith

theorem list_sum_neg {l : List ℚ} (hne : l ≠ []) (h : ∀ x ∈ l, x < 0) : l.sum < 0 := by
  cases l with
  | nil => exact absurd rfl hne
  | cons a l =>
      have ha := h a (List.mem_cons_self a l)
      have hl : l.sum ≤ 0 :=
        list_sum_nonpos (fun x hx => (h x (List.mem_cons_of_mem a hx)).le)
      simp only [List.sum_cons]
      linarith

theorem slopeNum_nonpos (pts : List (ℚ × ℚ))
    (hx : List.Pairwise (fun p q : ℚ × ℚ => p.1 < q.1) pts)
    (hy : List.Pairwise (fun p q : ℚ × ℚ => q.2 < p.2) pts) :
    slopeNum pts ≤ 0 := by
  induction pts with
  | nil => simp [slopeNum, nQ, sx, sy, sxy]
  | cons p l ih =>
      rw [slopeNum_cons]
      obtain ⟨hxp, hxl⟩ := List.pairwise_cons.mp hx
      obtain ⟨hyp, hyl⟩ := List.pairwise_cons.mp hy
      have hsum : (l.map (fun q => (q.1 - p.1) * (q.2 - p.2))).sum ≤ 0 := by
        refine list_sum_nonpos ?_
        intro x hxmem
        obtain ⟨q, hq, rfl⟩ := List.mem_map.mp hxmem
        have h1 : 0 < q.1 - p.1 := sub_pos.mpr (hxp q hq)
        have h2 : q.2 - p.2 < 0 := sub_neg.mpr (hyp q hq)
        exact (mul_neg_of_pos_of_neg h1 h2).le
      have := ih hxl hyl
      linarith

theorem slopeNum_neg (pts : List (ℚ × ℚ)) (hlen : 2 ≤ pts.length)
    (hx : List.Pairwise (fun p q : ℚ × ℚ => p.1 < q.1) pts)
    (hy : List.Pairwise (fun p q : ℚ × ℚ => q.2 < p.2) pts) :
    slopeNum pts < 0 := by
  cases pts with
  | nil => simp at hlen
  | cons p l =>
      cases l with
      | nil => simp at hlen
      | cons q l' =>
          rw [slopeNum_cons]
          obtain ⟨hxp, hxl⟩ := List.pairwise_cons.mp hx
          obtain ⟨hyp, hyl⟩ := List.pairwise_cons.mp hy
          have hsum : ((q :: l').map (fun r => (r.1 - p.1) * (r.2 - p.2))).sum < 0 := by
            refine list_sum_neg (by simp) ?_
            intro x hxmem
            obtain ⟨r, hr, rfl⟩ := List.mem_map.mp hxmem
            have h1 : 0 < r.1 - p.1 := sub_pos.mpr (hxp r hr)
            have h2 : r.2 - p.2 < 0 := sub_neg.mpr (hyp r hr)
            exact mul_neg_of_pos_of_neg h1 h2
          have := slopeNum_nonpos (q :: l') hxl hyl
          linarith

theorem slopeDen_nonneg (pts : List (ℚ × ℚ)) : 0 ≤ slopeDen pts := by
  induction pts with
  | nil => simp [slopeDen, nQ, sx, sxx]
  | cons p l ih =>
      rw [slopeDen_cons]
      have hsum : 0 ≤ (l.map (fun q => (q.1 - p.1) * (q.1 - p.1))).sum := by
        refine List.sum_nonneg ?_
        intro x hxmem
        obtain ⟨q, _, rfl⟩ := List.mem_map.mp hxmem
        exact mul_self_nonneg _
      linarith

theorem slopeDen_pos (pts : List (ℚ × ℚ)) (hlen : 2 ≤ pts.length)
    (hx : List.Pairwise (fun p q : ℚ × ℚ => p.1 < q.1) pts) :
    0 < slopeDen pts := by
  cases pts with
  | nil => simp at hlen
  | cons p l =>
      cases l with
      | nil => simp at hlen
      | cons q l' =>
          rw [slopeDen_cons]
          obtain ⟨hxp, hxl⟩ := List.pairwise_cons.mp hx
          have hden := slopeDen_nonneg (q :: l')
          have hq1 : 0 < q.1 - p.1 := sub_pos.mpr (hxp q (List.mem_cons_self q l'))
          have hsum : 0 < ((q :: l').map (fun r => (r.1 - p.1) * (r.1 - p.1))).sum := by
            simp only [List.map_cons, List.sum_cons]
            have hrest : 0 ≤ (l'.map (fun r => (r.1 - p.1) * (r.1 - p.1))).sum := by
              refine List.sum_nonneg ?_
              intro x hxmem
              obtain ⟨r, _, rfl⟩ := List.mem_map.mp hxmem
              exact mul_self_nonneg _
            have hhead : 0 < (q.1 - p.1) * (q.1 - p.1) := mul_pos hq1 hq1
            linarith
          linarith

theorem nQ_ne_zero {pts : List (ℚ × ℚ)} (h : pts ≠ []) : nQ pts ≠ 0 := by
  have hpos : 0 < pts.length := List.length_pos.mpr h
  simp only [nQ]
  exact_mod_cast Nat.pos_iff_ne_zero.mp hpos

theorem ne_nil_of_slopeDen_ne_zero {pts : List (ℚ × ℚ)} (hD : slopeDen pts ≠ 0) :
    pts ≠ [] := by
  intro hnil
  apply hD
  subst hnil
  simp [slopeDen, nQ, sx, sxx]

theorem normalEq1 {pts : List (ℚ × ℚ)} (h : pts ≠ []) :
    sy pts - coef pts * sx pts - intercept pts * nQ pts = 0 := by
  have hn := nQ_ne_zero h
  rw [intercept]
  field_simp

theorem normalEq2 {pts : List (ℚ × ℚ)} (hD : slopeDen pts ≠ 0) :
    sxy pts - coef pts * sxx pts - intercept pts * sx pts = 0 := by
  have hne := ne_nil_of_slopeDen_ne_zero hD
  have hn := nQ_ne_zero hne
  have hm : coef pts * slopeDen pts = slopeNum pts := by
    rw [coef]
    exact div_mul_cancel₀ _ hD
  have h1 : intercept pts * nQ pts = sy pts - coef pts * sx pts := by
    rw [intercept]
    exact div_mul_cancel₀ _ hn
  simp only [slopeNum, slopeDen] at hm
  have key : nQ pts * (sxy pts - coef pts * sxx pts - intercept pts * sx pts) = 0 := by
    linear_combination (-(sx pts)) * h1 - hm
  rcases mul_eq_zero.mp key with h | h
  · exact absurd h hn
  · exact h

theorem SSE_decomp {pts : List (ℚ × ℚ)} (hD : slopeDen pts ≠ 0) (m' c' : ℚ) :
    SSE pts m' c'
      = SSE pts (coef pts) (intercept pts)
          + (pts.map (fun p =>
              ((coef pts - m') * p.1 + (intercept pts - c'))
                * ((coef pts - m') * p.1 + (intercept pts - c')))).sum := by
  have h2 := normalEq2 hD
  have h1 := normalEq1 (ne_nil_of_slopeDen_ne_zero hD)
  rw [SSE_expand, SSE_expand, sum_affine_sq]
  linear_combination (2 * (coef pts - m')) * h2 + (2 * (intercept pts - c')) * h1

theorem truncQ_of_nonneg {q : ℚ} (h : 0 ≤ q) : truncQ q = ⌊q⌋ := by
  simp [truncQ, h]

theorem truncQ_zero : truncQ 0 = 0 := by
  simp [truncQ]

theorem truncQ_max0_nonneg (x : ℚ) : 0 ≤ truncQ (max 0 x) := by
  rw [truncQ_of_nonneg (le_max_left 0 x)]
  exact Int.floor_nonneg.mpr (le_max_left 0 x)

theorem estimate_eq_ok (pts : List (ℚ × ℚ)) (h : pts ≠ []) (hm : coef pts ≠ 0) :
    estimate pts
      = .ok ⟨sohVal (pts.head h).2 (pts.getLast h).2, (pts.getLast h).2,
          truncQ (max 0 ((EOL_THRESHOLD - intercept pts) / coef pts - (pts.getLast h).1)),
          coef pts, intercept pts⟩ := by
  unfold estimate
  rw [List.head?_eq_head h, List.getLast?_eq_getLast pts h]
  simp [PyFloat.div, PyFloat.sub, PyFloat.pymax0, pyInt, hm]

/-- C1: for every non-empty history whose fitted slope `m` is nonzero,
the prediction engine returns the fitted slope and intercept, the
predicted end-of-life cycle is `(EOL_THRESHOLD - c) / m`, and
`remaining_cycles` is `max(0, predicted_end_cycle - current_cycle)`
truncated toward zero — equivalently floored, since the clamp is applied
before the truncation — hence a non-negative integer. -/
theorem C1_remaining_cycles_clamp_then_floor (pts : List (ℚ × ℚ)) (h : pts ≠ [])
    (hm : coef pts ≠ 0) :
    ∃ e, estimate pts = .ok e ∧ e.m = coef pts ∧ e.c = intercept pts ∧
      e.remaining_cycles
        = truncQ (max 0 ((EOL_THRESHOLD - intercept pts) / coef pts - (pts.getLast h).1)) ∧
      e.remaining_cycles
        = ⌊max 0 ((EOL_THRESHOLD - intercept pts) / coef pts - (pts.getLast h).1)⌋ ∧
      0 ≤ e.remaining_cycles := by
  refine ⟨_, estimate_eq_ok pts h hm, rfl, rfl, rfl, ?_, ?_⟩
  · exact truncQ_of_nonneg (le_max_left _ _)
  · exact truncQ_max0_nonneg _

/-- Witness for C1 at the history `[(1, 2.0), (2, 1.8), (3, 1.6)]`,
whose fitted slope is `-1/5`. -/
theorem C1_remaining_cycles_clamp_then_floor_witness :
    ∃ e, estimate [((1:ℚ), 2), (2, 9/5), (3, 8/5)] = .ok e ∧
      0 ≤ e.remaining_cycles := by
  obtain ⟨e, he, -, -, -, -, hpos⟩ :=
    C1_remaining_cycles_clamp_then_floor [((1:ℚ), 2), (2, 9/5), (3, 8/5)]
      (by simp)
      (by norm_num [coef, slopeNum, slopeDen, nQ, sx, sy, sxy, sxx])
  exact ⟨e, he, hpos⟩

/-- C2: for every non-empty history with nonzero baseline capacity, the
state of health is `(latest_capacity / baseline_capacity) * 100`, the
baseline being the first record's capacity and the latest the last
record's; when the two coincide the state of health is exactly 100. -/
theorem C2_soh_formula (pts : List (ℚ × ℚ)) (h : pts ≠ [])
    (hb : (pts.head h).2 ≠ 0) :
    soh pts = .ok (.fin ((pts.getLast h).2 / (pts.head h).2 * 100)) ∧
      ((pts.getLast h).2 = (pts.head h).2 → soh pts = .ok (.fin 100)) := by
  have hbase : soh pts = .ok (.fin ((pts.getLast h).2 / (pts.head h).2 * 100)) := by
    unfold soh
    rw [List.head?_eq_head h, List.getLast?_eq_getLast pts h]
    simp [sohVal, PyFloat.div, PyFloat.mul, hb]
  refine ⟨hbase, fun heq => ?_⟩
  rw [hbase, heq, div_self hb]
  norm_num

/-- Witness for C2 at the history `[(1, 2.0), (2, 2.0)]`: the baseline
and latest capacities coincide, so the state of health is exactly 100. -/
theorem C2_soh_formula_witness :
    soh [((1:ℚ), 2), (2, 2)] = .ok (.fin 100) := by
  have hw := C2_soh_formula [((1:ℚ), 2), (2, 2)] (by simp) (by norm_num)
  exact hw.2 (by norm_num)

/-- C3 (code-bug evidence): on the flat history `[(1,2),(2,2),(3,2)]`
the fitted slope is exactly 0; the source still divides by it, numpy
yields `-∞` for the predicted end-of-life cycle, the clamp turns it into
0, and the battery is reported with `remaining_cycles = 0` and an URGENT
alert — not the unbounded RUL the specification requires. -/
theorem C3_flat_history_reports_zero :
    coef [((1:ℚ), 2), (2, 2), (3, 2)] = 0 ∧
    estimate [((1:ℚ), 2), (2, 2), (3, 2)] = .ok ⟨.fin 100, 2, 0, 0, 2⟩ ∧
    alert 0 = .URGENT := by
  have hc : coef [((1:ℚ), 2), (2, 2), (3, 2)] = 0 := by
    norm_num [coef, slopeNum, slopeDen, nQ, sx, sy, sxy, sxx]
  have hi : intercept [((1:ℚ), 2), (2, 2), (3, 2)] = 2 := by
    norm_num [intercept, hc, nQ, sx, sy]
  refine ⟨hc, ?_, by decide⟩
  unfold estimate
  norm_num [hc, hi, EOL_THRESHOLD, PyFloat.div, PyFloat.sub, PyFloat.pymax0, pyInt,
    truncQ, sohVal, PyFloat.mul]

/-- C5: the alert is a pure threshold on `remaining_cycles`: HEALTHY
exactly when at least 15 cycles remain, so 15 gives HEALTHY and 14 gives
URGENT. -/
theorem C5_alert_threshold :
    (∀ rc : ℤ, alert rc = .HEALTHY ↔ 15 ≤ rc) ∧
      alert 15 = .HEALTHY ∧ alert 14 = .URGENT := by
  refine ⟨fun rc => ?_, by decide, by decide⟩
  rcases lt_or_le rc 15 with hlt | hle
  · simp only [alert, if_pos hlt]
    constructor
    · intro hcontra
      exact absurd hcontra (by simp)
    · intro hge
      omega
  · simp [alert, not_lt.mpr hle, hle]

/-- C8 (code-bug evidence): the source has no `EstimationError` at all.
A zero-record history fails with `IndexError` (from `iloc[-1]`), and a
history whose baseline capacity is 0 does not fail: the SoH division
yields `+∞` and the estimate succeeds with `soh = inf`. -/
theorem C8_no_estimation_error :
    estimate ([] : List (ℚ × ℚ)) = .error .indexError ∧
    estimate [((1:ℚ), 0), (2, 2)] = .ok ⟨.inf, 2, 0, 2, -2⟩ := by
  constructor
  · rfl
  · have hc : coef [((1:ℚ), 0), (2, 2)] = 2 := by
      norm_num [coef, slopeNum, slopeDen, nQ, sx, sy, sxy, sxx]
    have hi : intercept [((1:ℚ), 0), (2, 2)] = -2 := by
      norm_num [intercept, hc, nQ, sx, sy]
    unfold estimate
    norm_num [hc, hi, EOL_THRESHOLD, PyFloat.div, PyFloat.sub, PyFloat.pymax0, pyInt,
      truncQ, sohVal, PyFloat.mul]

/-- C9: when `'Temperature_measured'` is absent from the sensor columns,
the temperature chart's source column falls back to the dataframe's
first column, whatever it is; and when `'Voltage_measured'` is absent as
well, the voltage and temperature charts plot the identical first
column. -/
theorem C9_t_col_fallback (cols : List String)
    (ht : cols.contains "Temperature_measured" = false) :
    t_col cols = cols.head? ∧
      (cols.contains "Voltage_measured" = false → v_col cols = t_col cols) := by
  have ht' : "Temperature_measured" ∉ cols := by simpa using ht
  constructor
  · simp [t_col, ht']
  · intro hv
    have hv' : "Voltage_measured" ∉ cols := by simpa using hv
    simp [t_col, v_col, ht', hv']

/-- Witness for C9: a sensor file whose columns are
`["Current_load", "Time"]` has both charts plot `"Current_load"`. -/
theorem C9_t_col_fallback_witness :
    t_col ["Current_load", "Time"] = some "Current_load" ∧
      v_col ["Current_load", "Time"] = t_col ["Current_load", "Time"] := by
  have hw := C9_t_col_fallback ["Current_load", "Time"] (by decide)
  exact ⟨by rw [hw.1]; rfl, hw.2 (by decide)⟩

theorem le_getLast_fst (pts : List (ℚ × ℚ)) :
    ∀ (hne : pts ≠ []), List.Pairwise (fun p q : ℚ × ℚ => p.1 < q.1) pts →
      ∀ p ∈ pts, p.1 ≤ (pts.getLast hne).1 := by
  induction pts with
  | nil => intro hne; exact absurd rfl hne
  | cons a l ih =>
      intro hne hx p hp
      cases l with
      | nil =>
          have hpa : p = a := by simpa using hp
          subst hpa
          simp [List.getLast]
      | cons b l' =>
          have hlast : (a :: b :: l').getLast hne = (b :: l').getLast (by simp) :=
            List.getLast_cons (by simp)
          rcases List.mem_cons.mp hp with rfl | hp'
          · have hmem := List.getLast_mem (l := b :: l') (by simp)
            have hlt := (List.pairwise_cons.mp hx).1 _ hmem
            rw [hlast]
            exact hlt.le
          · rw [hlast]
            exact ih (by simp) (List.pairwise_cons.mp hx).2 p hp'

theorem sx_le_of_bound {pts : List (ℚ × ℚ)} {L : ℚ} (h : ∀ p ∈ pts, p.1 ≤ L) :
    sx pts ≤ L * nQ pts := by
  induction pts with
  | nil => simp [sx, nQ]
  | cons a l ih =>
      rw [sx_cons, nQ_cons]
      have h1 := h a (List.mem_cons_self a l)
      have h2 := ih (fun p hp => h p (List.mem_cons_of_mem a hp))
      have hexp : L * (nQ l + 1) = L * nQ l + L := by ring
      linarith

theorem lt_sum_of_bound {pts : List (ℚ × ℚ)} {T : ℚ} (hne : pts ≠ [])
    (h : ∀ p ∈ pts, T < p.2) : T * nQ pts < sy pts := by
  induction pts with
  | nil => exact absurd rfl hne
  | cons a l ih =>
      rw [sy_cons, nQ_cons]
      have h1 := h a (List.mem_cons_self a l)
      by_cases hl : l = []
      · subst hl
        simp only [nQ_nil]
        have : sy ([] : List (ℚ × ℚ)) = 0 := by simp [sy]
        rw [this]
        have hexp : T * ((0:ℚ) + 1) = T := by ring
        linarith
      · have h2 := ih hl (fun p hp => h p (List.mem_cons_of_mem a hp))
        have hexp : T * (nQ l + 1) = T * nQ l + T := by ring
        have hsy0 : sy l ≤ sy l := le_refl _
        linarith

/-- C6: every history with at least two records, strictly increasing
cycle values and strictly decreasing capacity has a strictly negative
fitted slope, so the engine succeeds (no infinite value reaches
`int(...)`) and `remaining_cycles` is a finite, non-negative integer. -/
theorem C6_decreasing_history_finite_nonneg (pts : List (ℚ × ℚ))
    (hlen : 2 ≤ pts.length)
    (hx : List.Pairwise (fun p q : ℚ × ℚ => p.1 < q.1) pts)
    (hy : List.Pairwise (fun p q : ℚ × ℚ => q.2 < p.2) pts) :
    ∃ e, estimate pts = .ok e ∧ 0 ≤ e.remaining_cycles := by
  have hne : pts ≠ [] := by
    intro hnil
    rw [hnil] at hlen
    simp at hlen
  have hN := slopeNum_neg pts hlen hx hy
  have hD := slopeDen_pos pts hlen hx
  have hm : coef pts ≠ 0 := by
    rw [coef]
    exact (div_neg_of_neg_of_pos hN hD).ne
  exact ⟨_, estimate_eq_ok pts hne hm, truncQ_max0_nonneg _⟩

/-- Witness for C6 at the strictly decreasing history
`[(1, 2.0), (2, 1.0)]`. -/
theorem C6_decreasing_history_finite_nonneg_witness :
    ∃ e, estimate [((1:ℚ), 2), (2, 1)] = .ok e ∧ 0 ≤ e.remaining_cycles := by
  refine C6_decreasing_history_finite_nonneg [((1:ℚ), 2), (2, 1)] (by norm_num) ?_ ?_
  · refine List.pairwise_cons.mpr ⟨?_, by simp⟩
    intro q hq
    have hq' : q = ((2:ℚ), (1:ℚ)) := by simpa using hq
    rw [hq']
    norm_num
  · refine List.pairwise_cons.mpr ⟨?_, by simp⟩
    intro q hq
    have hq' : q = ((2:ℚ), (1:ℚ)) := by simpa using hq
    rw [hq']
    norm_num

/-- C10: for a history with at least two records, strictly increasing
cycles, a strictly positive fitted slope and every capacity strictly
above `EOL_THRESHOLD` (an improving, healthy battery), the engine
reports `remaining_cycles = 0` and classifies the battery URGENT. -/
theorem C10_improving_battery_reported_eol (pts : List (ℚ × ℚ))
    (hlen : 2 ≤ pts.length)
    (hx : List.Pairwise (fun p q : ℚ × ℚ => p.1 < q.1) pts)
    (hm : 0 < coef pts)
    (hcap : ∀ p ∈ pts, EOL_THRESHOLD < p.2) :
    ∃ e, estimate pts = .ok e ∧ e.remaining_cycles = 0 ∧
      alert e.remaining_cycles = .URGENT := by
  have hne : pts ≠ [] := by
    intro hnil
    rw [hnil] at hlen
    simp at hlen
  have hn : (0:ℚ) < nQ pts := by
    have := List.length_pos.mpr hne
    simp only [nQ]
    exact_mod_cast this
  have hlastb := le_getLast_fst pts hne hx
  have hsx : sx pts ≤ (pts.getLast hne).1 * nQ pts := sx_le_of_bound hlastb
  have hsy : EOL_THRESHOLD * nQ pts < sy pts := lt_sum_of_bound hne hcap
  have hc : intercept pts * nQ pts = sy pts - coef pts * sx pts := by
    rw [intercept]
    exact div_mul_cancel₀ _ hn.ne'
  have hmsx : coef pts * sx pts ≤ coef pts * ((pts.getLast hne).1 * nQ pts) :=
    mul_le_mul_of_nonneg_left hsx hm.le
  have key : EOL_THRESHOLD - intercept pts ≤ (pts.getLast hne).1 * coef pts := by
    rw [← mul_le_mul_right hn]
    nlinarith [hc, hsy, hmsx]
  have hdiv : (EOL_THRESHOLD - intercept pts) / coef pts ≤ (pts.getLast hne).1 :=
    (div_le_iff₀ hm).mpr key
  have hrc :
      truncQ (max 0 ((EOL_THRESHOLD - intercept pts) / coef pts - (pts.getLast hne).1))
        = 0 := by
    rw [max_eq_left (sub_nonpos.mpr hdiv), truncQ_zero]
  refine ⟨_, estimate_eq_ok pts hne hm.ne', hrc, ?_⟩
  rw [show
    ({ soh := sohVal (pts.head hne).2 (pts.getLast hne).2,
       latest_capacity := (pts.getLast hne).2,
       remaining_cycles :=
         truncQ (max 0 ((EOL_THRESHOLD - intercept pts) / coef pts - (pts.getLast hne).1)),
       m := coef pts, c := intercept pts } : HealthEstimate).remaining_cycles
      = truncQ (max 0 ((EOL_THRESHOLD - intercept pts) / coef pts - (pts.getLast hne).1))
    from rfl, hrc]
  decide

/-- Witness for C10 at the improving history `[(1, 2.0), (2, 3.0)]`,
whose fitted slope is `1`. -/
theorem C10_improving_battery_reported_eol_witness :
    ∃ e, estimate [((1:ℚ), 2), (2, 3)] = .ok e ∧ e.remaining_cycles = 0 ∧
      alert e.remaining_cycles = .URGENT := by
  refine C10_improving_battery_reported_eol [((1:ℚ), 2), (2, 3)] (by norm_num) ?_ ?_ ?_
  · refine List.pairwise_cons.mpr ⟨?_, by simp⟩
    intro q hq
    have hq' : q = ((2:ℚ), (3:ℚ)) := by simpa using hq
    rw [hq']
    norm_num
  · norm_num [coef, slopeNum, slopeDen, nQ, sx, sy, sxy, sxx]
  · intro p hp
    rcases (by simpa using hp : p = ((1:ℚ), (2:ℚ)) ∨ p = ((2:ℚ), (3:ℚ))) with hp' | hp' <;>
      · rw [hp']
        norm_num [EOL_THRESHOLD]

/-- C4: the trend fit is ordinary least squares over the entire history:
whenever the cycle values are not all equal (nonzero denominator), the
fitted `(coef, intercept)` minimise the residual sum of squares among
all lines.  On the history `[(1, 2.0), (2, 1.8), (3, 1.6)]` with
`EOL_THRESHOLD = 1.4` the fit is slope `-0.2`, intercept `2.2`,
predicted end-of-life cycle `4.0`, `remaining_cycles = 1`, and the
classification is URGENT. -/
theorem C4_ols_fit :
    (∀ pts : List (ℚ × ℚ), slopeDen pts ≠ 0 → ∀ mw cw : ℚ,
        SSE pts (coef pts) (intercept pts) ≤ SSE pts mw cw) ∧
      coef [((1:ℚ), 2), (2, 9/5), (3, 8/5)] = -(1/5) ∧
      intercept [((1:ℚ), 2), (2, 9/5), (3, 8/5)] = 11/5 ∧
      (EOL_THRESHOLD - intercept [((1:ℚ), 2), (2, 9/5), (3, 8/5)])
          / coef [((1:ℚ), 2), (2, 9/5), (3, 8/5)] = 4 ∧
      (∃ e, estimate [((1:ℚ), 2), (2, 9/5), (3, 8/5)] = .ok e ∧
        e.remaining_cycles = 1 ∧ alert e.remaining_cycles = .URGENT) := by
  have hopt : ∀ pts : List (ℚ × ℚ), slopeDen pts ≠ 0 → ∀ mw cw : ℚ,
      SSE pts (coef pts) (intercept pts) ≤ SSE pts mw cw := by
    intro pts hD mw cw
    rw [SSE_decomp hD mw cw]
    have hsum : 0 ≤ (pts.map (fun p =>
        ((coef pts - mw) * p.1 + (intercept pts - cw))
          * ((coef pts - mw) * p.1 + (intercept pts - cw)))).sum := by
      refine List.sum_nonneg ?_
      intro x hx
      obtain ⟨p, -, rfl⟩ := List.mem_map.mp hx
      exact mul_self_nonneg _
    linarith
  have hc : coef [((1:ℚ), 2), (2, 9/5), (3, 8/5)] = -(1/5) := by
    norm_num [coef, slopeNum, slopeDen, nQ, sx, sy, sxy, sxx]
  have hi : intercept [((1:ℚ), 2), (2, 9/5), (3, 8/5)] = 11/5 := by
    norm_num [intercept, hc, nQ, sx, sy]
  have hne : ([((1:ℚ), 2), (2, 9/5), (3, 8/5)] : List (ℚ × ℚ)) ≠ [] := by simp
  have hm : coef [((1:ℚ), 2), (2, 9/5), (3, 8/5)] ≠ 0 := by
    rw [hc]
    norm_num
  have hlast : ([((1:ℚ), 2), (2, 9/5), (3, 8/5)].getLast hne) = (3, 8/5) := rfl
  have hrc : truncQ (max 0 ((EOL_THRESHOLD - intercept [((1:ℚ), 2), (2, 9/5), (3, 8/5)])
      / coef [((1:ℚ), 2), (2, 9/5), (3, 8/5)]
      - ([((1:ℚ), 2), (2, 9/5), (3, 8/5)].getLast hne).1)) = 1 := by
    rw [hc, hi, hlast]
    norm_num [EOL_THRESHOLD, truncQ]
  refine ⟨hopt, hc, hi, ?_, ?_⟩
  · rw [hc, hi]
    norm_num [EOL_THRESHOLD]
  · refine ⟨_, estimate_eq_ok _ hne hm, ?_, ?_⟩
    · exact hrc
    · show alert (truncQ (max 0
          ((EOL_THRESHOLD - intercept [((1:ℚ), 2), (2, 9/5), (3, 8/5)])
            / coef [((1:ℚ), 2), (2, 9/5), (3, 8/5)]
            - ([((1:ℚ), 2), (2, 9/5), (3, 8/5)].getLast hne).1))) = .URGENT
      rw [hrc]
      decide

/-- Witness for C4's optimality clause at the scenario history: the
fitted line beats the line `y = 2` there. -/
theorem C4_ols_fit_witness :
    SSE [((1:ℚ), 2), (2, 9/5), (3, 8/5)]
        (coef [((1:ℚ), 2), (2, 9/5), (3, 8/5)])
        (intercept [((1:ℚ), 2), (2, 9/5), (3, 8/5)])
      ≤ SSE [((1:ℚ), 2), (2, 9/5), (3, 8/5)] 0 2 := by
  refine C4_ols_fit.1 [((1:ℚ), 2), (2, 9/5), (3, 8/5)] ?_ 0 2
  norm_num [slopeDen, nQ, sx, sxx]

theorem string_data_lt_iff (s t : String) : s.data < t.data ↔ s < t := by
  rw [String.lt_iff_toList_lt]
  rfl

theorem keyLe_iff (a b : MetaRow) :
    keyLe a b = true ↔
      a.battery_id < b.battery_id ∨
        (a.battery_id = b.battery_id ∧ a.test_id ≤ b.test_id) := by
  simp only [keyLe, Bool.or_eq_true, Bool.and_eq_true, decide_eq_true_eq, beq_iff_eq,
    string_data_lt_iff]

theorem keyLe_trans (a b c : MetaRow) (h1 : keyLe a b = true) (h2 : keyLe b c = true) :
    keyLe a c = true := by
  rw [keyLe_iff] at h1 h2 ⊢
  rcases h1 with h1 | ⟨h1e, h1i⟩
  · rcases h2 with h2 | ⟨h2e, h2i⟩
    · exact Or.inl (lt_trans h1 h2)
    · exact Or.inl (by rw [← h2e]; exact h1)
  · rcases h2 with h2 | ⟨h2e, h2i⟩
    · exact Or.inl (by rw [h1e]; exact h2)
    · exact Or.inr ⟨h1e.trans h2e, le_trans h1i h2i⟩

theorem keyLe_total (a b : MetaRow) : (keyLe a b || keyLe b a) = true := by
  simp only [Bool.or_eq_true, keyLe_iff]
  rcases lt_trichotomy a.battery_id b.battery_id with h | h | h
  · exact Or.inl (Or.inl h)
  · rcases le_total a.test_id b.test_id with hi | hi
    · exact Or.inl (Or.inr ⟨h, hi⟩)
    · exact Or.inr (Or.inr ⟨h.symm, hi⟩)
  · exact Or.inr (Or.inl h)

theorem assignCycles_map_fst (l : List MetaRow) (cnt : String → ℕ) :
    (assignCycles l cnt).map Prod.fst = l := by
  induction l generalizing cnt with
  | nil => simp [assignCycles]
  | cons r rest ih => simp [assignCycles, ih]

theorem assignCycles_cycles (l : List MetaRow) (cnt : String → ℕ) (b : String) :
    ((assignCycles l cnt).filter (fun r => r.1.battery_id == b)).map (fun r => r.2)
      = List.range' (cnt b + 1) (l.countP (fun r => r.battery_id == b)) := by
  induction l generalizing cnt with
  | nil => simp [assignCycles]
  | cons r rest ih =>
      simp only [assignCycles, List.filter_cons, List.countP_cons]
      by_cases hb : r.battery_id = b
      · have hbeq : (r.battery_id == b) = true := beq_iff_eq.mpr hb
        simp only [hbeq, if_true, List.map_cons]
        rw [ih]
        have hcnt : (if b = r.battery_id then cnt b + 1 else cnt b) = cnt b + 1 :=
          if_pos hb.symm
        rw [hcnt, hb, List.range'_succ]
      · have hbeq : (r.battery_id == b) = false := by
          simp [hb]
        simp only [hbeq, Bool.false_eq_true, if_false]
        rw [ih]
        have hcnt : (if b = r.battery_id then cnt b + 1 else cnt b) = cnt b :=
          if_neg (fun hcontra => hb hcontra.symm)
        rw [hcnt]
        simp

/-- C7: ingestion keeps exactly rows drawn from the input whose type is
`"discharge"` and whose `Capacity` coerced to a number (malformed rows
are dropped, never defaulted), orders the result by
`(battery_id, test_id)` ascending, and assigns each battery cycle
numbers that are the 1-based rank within its rows — a contiguous
sequence `1..N` with no gaps. -/
theorem C7_load_metadata_contract (df : List MetaRow) :
    (∀ r ∈ load_metadata df,
        r.1.type = "discharge" ∧ r.1.Capacity.isSome = true ∧ r.1 ∈ df) ∧
      List.Pairwise (fun a b : MetaRow × ℕ =>
        a.1.battery_id < b.1.battery_id ∨
          (a.1.battery_id = b.1.battery_id ∧ a.1.test_id ≤ b.1.test_id))
        (load_metadata df) ∧
      ∀ b : String,
        ((load_metadata df).filter (fun r => r.1.battery_id == b)).map (fun r => r.2)
          = List.range' 1
              (((load_metadata df).filter (fun r => r.1.battery_id == b)).length) := by
  refine ⟨?_, ?_, ?_⟩
  · intro r hr
    simp only [load_metadata] at hr
    have h1 := List.mem_map_of_mem Prod.fst hr
    rw [assignCycles_map_fst] at h1
    have h2 : r.1 ∈ df.filter (fun x => x.type == "discharge" && x.Capacity.isSome) :=
      (List.mergeSort_perm _ keyLe).mem_iff.mp h1
    obtain ⟨hmem, hpred⟩ := List.mem_filter.mp h2
    obtain ⟨hp1, hp2⟩ := Bool.and_eq_true_iff.mp hpred
    exact ⟨beq_iff_eq.mp hp1, hp2, hmem⟩
  · simp only [load_metadata]
    have hs := List.sorted_mergeSort keyLe_trans keyLe_total
      (df.filter (fun x => x.type == "discharge" && x.Capacity.isSome))
    have hmap : List.Pairwise (fun a b => keyLe a b = true)
        ((assignCycles
          ((df.filter (fun x => x.type == "discharge" && x.Capacity.isSome)).mergeSort keyLe)
          (fun _ => 0)).map Prod.fst) := by
      rw [assignCycles_map_fst]
      exact hs
    have hp := List.pairwise_map.mp hmap
    exact hp.imp (fun h => (keyLe_iff _ _).mp h)
  · intro b
    simp only [load_metadata]
    have hkey := assignCycles_cycles
      ((df.filter (fun x => x.type == "discharge" && x.Capacity.isSome)).mergeSort keyLe)
      (fun _ => 0) b
    have hlen : ((assignCycles
        ((df.filter (fun x => x.type == "discharge" && x.Capacity.isSome)).mergeSort keyLe)
        (fun _ => 0)).filter (fun r => r.1.battery_id == b)).length
          = ((df.filter (fun x => x.type == "discharge" && x.Capacity.isSome)).mergeSort
              keyLe).countP (fun r => r.battery_id == b) := by
      have hcong := congrArg List.length hkey
      simpa using hcong
    rw [hkey, hlen]

/-- Witness for C7 on `sampleMetadata`: the first discharge row of
battery `"B1"` appears in the output, and battery `"B1"`'s cycle numbers
are the contiguous sequence starting at 1. -/
theorem C7_load_metadata_contract_witness :
    ((MetaRow.mk "B1" 2 "discharge" (some 2)).type = "discharge"
        ∧ (MetaRow.mk "B1" 2 "discharge" (some 2)).Capacity.isSome = true
        ∧ MetaRow.mk "B1" 2 "discharge" (some 2) ∈ sampleMetadata) ∧
      ((load_metadata sampleMetadata).filter
          (fun r => r.1.battery_id == "B1")).map (fun r => r.2)
        = List.range' 1
            (((load_metadata sampleMetadata).filter
              (fun r => r.1.battery_id == "B1")).length) := by
  have hpair : List.Pairwise (fun a b => keyLe a b = true)
      (sampleMetadata.filter (fun r => r.type == "discharge" && r.Capacity.isSome)) := by
    decide
  have hload : load_metadata sampleMetadata
      = [(⟨"B1", 2, "discharge", some 2⟩, 1),
         (⟨"B1", 4, "discharge", some (9/5)⟩, 2),
         (⟨"B2", 1, "discharge", some 3⟩, 1)] := by
    unfold load_metadata
    rw [List.mergeSort_of_sorted hpair]
    rfl
  have hC := C7_load_metadata_contract sampleMetadata
  have hmem : (MetaRow.mk "B1" 2 "discharge" (some 2), 1) ∈ load_metadata sampleMetadata := by
    rw [hload]
    exact List.mem_cons_self _ _
  exact ⟨hC.1 (MetaRow.mk "B1" 2 "discharge" (some 2), 1) hmem, hC.2.2 "B1"⟩
